import Mathlib

set_option maxHeartbeats 1000000

/- Formal model of the zamerzika audio freeze effect (src/lib.rs).

   Audio samples (Rust f64 values that are only moved, scaled by small exact
   dyadic factors and averaged) are modelled as rationals; machine usize
   counters as Nat.  The MIDI pitch to frequency conversion, which the source
   computes with f64 exp2, is modelled over the reals.  Fallible Vec indexing
   is modelled with List.set / List.getD; the in-bounds side conditions are
   tracked by the well-formedness predicate RingBuffer.WF. -/

/-- CHANNELS constant from the source: stereo. -/
abbrev CHANNELS : ℕ := 2

/-- MAX_WINDOW_SIZE constant from the source: MIDI note 0 at a maximal 96 kHz
    sample rate corresponds to about 11742 samples. -/
abbrev MAX_WINDOW_SIZE : ℕ := 11742

/-- XFADE_FRAMES constant from the source: length of the smoothing and
    release crossfade region. -/
abbrev XFADE_FRAMES : ℕ := 64

/-- Model of the RingBuffer struct: two cursors, a logical length, and the
    backing Vec of f64 samples. -/
structure RingBuffer where
  read_cursor : ℕ
  write_cursor : ℕ
  len : ℕ
  data : List ℚ
deriving DecidableEq

/-- The Rust Default value of RingBuffer: cursors 0, length 0, empty Vec. -/
def RingBuffer.empty : RingBuffer := ⟨0, 0, 0, []⟩

/-- RingBuffer::write - store the sample at write_cursor, advance the cursor
    by one, wrapping to 0 once it reaches the logical length. -/
def RingBuffer.write (rb : RingBuffer) (sample : ℚ) : RingBuffer :=
  { rb with
    data := rb.data.set rb.write_cursor sample
    write_cursor := if rb.write_cursor + 1 ≥ rb.len then 0 else rb.write_cursor + 1 }

/-- RingBuffer::read - return the sample at read_cursor and advance the
    cursor with the same wraparound rule. -/
def RingBuffer.read (rb : RingBuffer) : ℚ × RingBuffer :=
  (rb.data.getD rb.read_cursor 0,
   { rb with read_cursor := if rb.read_cursor + 1 ≥ rb.len then 0 else rb.read_cursor + 1 })

/-- RingBuffer::resize - reset both cursors to 0, set the logical length and
    resize the backing Vec (Vec::resize truncates when shrinking and pads
    with the given value when growing). -/
def RingBuffer.resize (rb : RingBuffer) (new_len : ℕ) (value : ℚ) : RingBuffer :=
  { read_cursor := 0
    write_cursor := 0
    len := new_len
    data :=
      if new_len ≤ rb.data.length then rb.data.take new_len
      else rb.data ++ List.replicate (new_len - rb.data.length) value }

/-- RingBuffer::open_window - reposition read_cursor to window_size samples
    behind write_cursor modulo the logical length.  The source computes
    (write_cursor + len - window_size) with machine subtraction; at every
    call site window_size ≤ len holds, so Nat subtraction agrees. -/
def RingBuffer.open_window (rb : RingBuffer) (window_size : ℕ) : RingBuffer :=
  { rb with read_cursor := (rb.write_cursor + rb.len - window_size) % rb.len }

/-- One iteration of the loop body of RingBuffer::smooth at loop index i:
    data[i % len] = 0.5 * (data[i % len] + data[(i-1) % len]). -/
def smoothStep (len : ℕ) (data : List ℚ) (i : ℕ) : List ℚ :=
  data.set (i % len) ((1 / 2 : ℚ) * (data.getD (i % len) 0 + data.getD ((i - 1) % len) 0))

/-- The loop of RingBuffer::smooth, running k iterations upward from index i. -/
def smoothLoop (len : ℕ) : List ℚ → ℕ → ℕ → List ℚ
  | data, _, 0 => data
  | data, i, k + 1 => smoothLoop len (smoothStep len data i) (i + 1) k

/-- RingBuffer::smooth - blend depth samples (capped to the logical length),
    starting at read_cursor, each with its circular predecessor.  The loop
    index starts at read_cursor + len so that the machine subtraction i - 1
    in the source never underflows. -/
def RingBuffer.smooth (rb : RingBuffer) (depth : ℕ) : RingBuffer :=
  { rb with data := smoothLoop rb.len rb.data (rb.read_cursor + rb.len) (min depth rb.len) }

/-- A sequence of write calls, in order. -/
def writeList (rb : RingBuffer) (xs : List ℚ) : RingBuffer :=
  xs.foldl RingBuffer.write rb

/-- A sequence of n read calls: the list of values read, and the final state. -/
def readList : RingBuffer → ℕ → List ℚ × RingBuffer
  | rb, 0 => ([], rb)
  | rb, n + 1 =>
    let r := rb.read
    let rest := readList r.2 n
    (r.1 :: rest.1, rest.2)

/-- The copy loop of the note-on handler: k times, read from the input ring
    and write the value into the output ring. -/
def copyLoop : RingBuffer → RingBuffer → ℕ → RingBuffer × RingBuffer
  | inp, out, 0 => (inp, out)
  | inp, out, k + 1 =>
    let r := inp.read
    copyLoop r.2 (out.write r.1) k

/-- Well-formedness of a ring buffer: the backing Vec has exactly the logical
    length and both cursors are strictly below it (so that every data[]
    access in the source is in bounds). -/
def RingBuffer.WF (rb : RingBuffer) : Prop :=
  rb.data.length = rb.len ∧ rb.read_cursor < rb.len ∧ rb.write_cursor < rb.len

/-- midi_pitch_to_freq from the source: 2^((pitch - 69)/12) * 440, computed
    in f64 via exp2 on the i8 pitch; modelled over the reals (pitches are
    0..=127, where the i8 cast is the identity). -/
noncomputable def midi_pitch_to_freq (pitch : ℕ) : ℝ :=
  (2 : ℝ) ^ (((pitch : ℝ) - 69) / 12) * 440

/-- Modelled from the spec wording, for comparison with the source function:
    equal-tempered tuning anchored at pitch 69 = 440 Hz,
    freq = 440 * 2^((pitch - 69)/12). -/
noncomputable def freqSpec (pitch : ℕ) : ℝ :=
  440 * (2 : ℝ) ^ (((pitch : ℝ) - 69) / 12)

/-- The window size computed on note-on:
    (sample_rate / midi_pitch_to_freq(pitch)).round() as usize. -/
noncomputable def windowSizeOf (sample_rate : ℝ) (pitch : ℕ) : ℕ :=
  (round (sample_rate / midi_pitch_to_freq pitch)).toNat

/-- A raw MIDI event: the first three data bytes (status, pitch, velocity). -/
structure MidiEvent where
  data0 : ℕ
  data1 : ℕ
  data2 : ℕ
deriving DecidableEq

/-- A host event: a MIDI event, or any other event kind (ignored). -/
inductive VstEvent where
  | midi (ev : MidiEvent)
  | other
deriving DecidableEq

/-- Model of the Zamerzika plugin state. -/
structure Zamerzika where
  sample_rate : ℝ
  note : Option ℕ
  input : Fin CHANNELS → RingBuffer
  output : Fin CHANNELS → RingBuffer
  window_size : ℕ
  xfade_countdown : Fin CHANNELS → ℕ

/-- Zamerzika::process_sample for one channel: always write the incoming
    sample into the input ring; if a note is held emit the output ring loop,
    else if the release countdown is positive emit the crossfade mix and
    decrement, else pass the live sample through. -/
def processSample (s : Zamerzika) (c : Fin CHANNELS) (sample : ℚ) : ℚ × Zamerzika :=
  let s1 := { s with input := Function.update s.input c ((s.input c).write sample) }
  if s1.note.isSome then
    let r := (s1.output c).read
    (r.1, { s1 with output := Function.update s1.output c r.2 })
  else if 0 < s1.xfade_countdown c then
    let alpha : ℚ := (s1.xfade_countdown c : ℚ) / (XFADE_FRAMES : ℚ)
    let r := (s1.output c).read
    (alpha * r.1 + (1 - alpha) * sample,
     { s1 with
       output := Function.update s1.output c r.2
       xfade_countdown := Function.update s1.xfade_countdown c (s1.xfade_countdown c - 1) })
  else (sample, s1)

/-- The 0x80 branch of process_events: if the note-off pitch matches the held
    note, clear the note and arm the crossfade countdown on every channel;
    otherwise do nothing. -/
def noteOff (s : Zamerzika) (pitch : ℕ) : Zamerzika :=
  match s.note with
  | some note =>
    if note = pitch then
      { s with note := none, xfade_countdown := fun _ => XFADE_FRAMES }
    else s
  | none => s

/-- The per-channel body of the 0x90 branch: open a window of size w over the
    input ring, resize the output ring to w, copy w samples across, then
    smooth the output ring over XFADE_FRAMES samples.  Returns the updated
    input and output rings. -/
def noteOnChannel (inp out : RingBuffer) (w : ℕ) : RingBuffer × RingBuffer :=
  let res := copyLoop (inp.open_window w) (out.resize w 0) w
  (res.1, res.2.smooth XFADE_FRAMES)

/-- The 0x90 branch of process_events: record the held note, compute the
    window size from the pitch, and capture the window on every channel. -/
noncomputable def noteOn (s : Zamerzika) (pitch : ℕ) : Zamerzika :=
  let w := windowSizeOf s.sample_rate pitch
  { s with
    note := some pitch
    window_size := w
    input := fun c => (noteOnChannel (s.input c) (s.output c) w).1
    output := fun c => (noteOnChannel (s.input c) (s.output c) w).2 }

/-- Dispatch of a single MIDI event on its status byte, as in process_events:
    0x80 is note-off, 0x90 is note-on, everything else is ignored. -/
noncomputable def processEvent (s : Zamerzika) (ev : MidiEvent) : Zamerzika :=
  if ev.data0 = 128 then noteOff s ev.data1
  else if ev.data0 = 144 then noteOn s ev.data1
  else s

/-- A single host event: non-MIDI events are ignored. -/
noncomputable def processVstEvent (s : Zamerzika) : VstEvent → Zamerzika
  | VstEvent.midi ev => processEvent s ev
  | VstEvent.other => s

/-- Zamerzika::process_events - fold over the batch of host events. -/
noncomputable def processEvents (s : Zamerzika) (events : List VstEvent) : Zamerzika :=
  events.foldl processVstEvent s

/-- The initial plugin state built by Plugin::new: 48 kHz sample rate, no
    note, both rings of every channel resized to MAX_WINDOW_SIZE filled with
    zeros, window size 0 and no countdown. -/
noncomputable def Zamerzika.init : Zamerzika :=
  { sample_rate := 48000
    note := none
    input := fun _ => RingBuffer.empty.resize MAX_WINDOW_SIZE 0
    output := fun _ => RingBuffer.empty.resize MAX_WINDOW_SIZE 0
    window_size := 0
    xfade_countdown := fun _ => 0 }

/-- Process a stream of samples on one channel: the list of output samples
    and the final state. -/
def runChannel (s : Zamerzika) (c : Fin CHANNELS) : List ℚ → List ℚ × Zamerzika
  | [] => ([], s)
  | x :: xs =>
    let r := processSample s c x
    let rest := runChannel r.2 c xs
    (r.1 :: rest.1, rest.2)

/-- One step of the engine: an event batch, one process_sample call on some
    channel, or a sample-rate notification from the host. -/
inductive Step : Zamerzika → Zamerzika → Prop where
  | events : ∀ (s : Zamerzika) (evs : List VstEvent), Step s (processEvents s evs)
  | sample : ∀ (s : Zamerzika) (c : Fin CHANNELS) (x : ℚ), Step s (processSample s c x).2
  | setRate : ∀ (s : Zamerzika) (r : ℝ), Step s { s with sample_rate := r }

/-- Reachability from the initial Live state. -/
def Reachable (s : Zamerzika) : Prop :=
  Relation.ReflTransGen Step Zamerzika.init s

/-- Restricted step relation for the amended C1 invariant: identical to Step
    except that a note-on event may only be processed while no release
    countdown is active on any channel. -/
inductive StepNP : Zamerzika → Zamerzika → Prop where
  | event : ∀ (s : Zamerzika) (ev : MidiEvent),
      (ev.data0 = 144 → ∀ c, s.xfade_countdown c = 0) → StepNP s (processEvent s ev)
  | sample : ∀ (s : Zamerzika) (c : Fin CHANNELS) (x : ℚ), StepNP s (processSample s c x).2
  | setRate : ∀ (s : Zamerzika) (r : ℝ), StepNP s { s with sample_rate := r }

/-- Reachability when note-ons only arrive while no release is in progress. -/
def ReachableNP (s : Zamerzika) : Prop :=
  Relation.ReflTransGen StepNP Zamerzika.init s

/-! Arithmetic and list helpers. -/

lemma wrap_succ {a L : ℕ} (h : a < L) :
    (if a + 1 ≥ L then 0 else a + 1) = (a + 1) % L := by
  split
  · have h1 : a + 1 = L := by omega
    simp [h1]
  · exact (Nat.mod_eq_of_lt (by omega)).symm

lemma add_mod_ne_self {b d L : ℕ} (hb : b < L) (h0 : 0 < d) (hd : d < L) :
    (b + d) % L ≠ b := by
  rcases Nat.lt_or_ge (b + d) L with h | h
  · rw [Nat.mod_eq_of_lt h]; omega
  · rw [Nat.mod_eq_sub_mod h, Nat.mod_eq_of_lt (by omega)]; omega

lemma add_mod_ne {a d L : ℕ} (h0 : 0 < d) (hd : d < L) :
    (a + d) % L ≠ a % L := by
  have hb : a % L < L := Nat.mod_lt _ (by omega)
  have h1 : (a + d) % L = (a % L + d) % L := by
    conv_lhs => rw [Nat.add_mod]
    rw [Nat.mod_eq_of_lt hd]
  rw [h1]
  exact add_mod_ne_self hb h0 hd

lemma getD_set_self : ∀ (l : List ℚ) (i : ℕ) (a : ℚ), i < l.length →
    (l.set i a).getD i 0 = a
  | [], i, a, h => absurd h (by simp)
  | _ :: _, 0, _, _ => rfl
  | _ :: t, i + 1, a, h => by
    simpa using getD_set_self t i a (by simpa using h)

lemma getD_set_ne : ∀ (l : List ℚ) (i k : ℕ) (a : ℚ), i ≠ k →
    (l.set i a).getD k 0 = l.getD k 0
  | [], _, _, _, _ => rfl
  | _ :: _, 0, 0, _, h => absurd rfl h
  | _ :: _, 0, _ + 1, _, _ => rfl
  | _ :: _, _ + 1, 0, _, _ => rfl
  | _ :: t, i + 1, k + 1, a, h => by
    simpa using getD_set_ne t i k a (by omega)

lemma getD_append_lt : ∀ (xs ys : List ℚ) (k : ℕ), k < xs.length →
    (xs ++ ys).getD k 0 = xs.getD k 0
  | [], _, _, h => absurd h (by simp)
  | _ :: _, _, 0, _ => rfl
  | _ :: t, ys, k + 1, h => by
    simpa using getD_append_lt t ys k (by simpa using h)

lemma getD_append_len : ∀ (xs : List ℚ) (x : ℚ),
    (xs ++ [x]).getD xs.length 0 = x
  | [], _ => rfl
  | _ :: t, x => by simpa using getD_append_len t x

lemma getD_drop : ∀ (k : ℕ) (l : List ℚ) (i : ℕ),
    (l.drop k).getD i 0 = l.getD (k + i) 0
  | 0, _, _ => by simp
  | _ + 1, [], _ => rfl
  | k + 1, _ :: t, i => by
    simpa [Nat.succ_add] using getD_drop k t i

lemma getD_ofFn {m : ℕ} (f : Fin m → ℚ) (k : ℕ) (h : k < m) :
    (List.ofFn f).getD k 0 = f ⟨k, h⟩ := by
  rw [List.getD_eq_getElem _ _ (by simpa using h)]
  simp

lemma list_eq_of_getD {l1 l2 : List ℚ} (hlen : l1.length = l2.length)
    (h : ∀ i, i < l1.length → l1.getD i 0 = l2.getD i 0) : l1 = l2 := by
  refine List.ext_get hlen (fun n h1 h2 => ?_)
  have := h n h1
  rwa [List.getD_eq_getElem _ _ h1, List.getD_eq_getElem _ _ h2] at this

/-! Basic facts about the ring-buffer operations. -/

lemma resize_read_cursor (rb : RingBuffer) (L : ℕ) (v : ℚ) :
    (rb.resize L v).read_cursor = 0 := rfl

lemma resize_write_cursor (rb : RingBuffer) (L : ℕ) (v : ℚ) :
    (rb.resize L v).write_cursor = 0 := rfl

lemma resize_len (rb : RingBuffer) (L : ℕ) (v : ℚ) :
    (rb.resize L v).len = L := rfl

lemma resize_data_length (rb : RingBuffer) (L : ℕ) (v : ℚ) :
    (rb.resize L v).data.length = L := by
  unfold RingBuffer.resize
  dsimp only
  split <;> simp <;> omega

lemma write_write_cursor {rb : RingBuffer} (h : rb.write_cursor < rb.len) (x : ℚ) :
    (rb.write x).write_cursor = (rb.write_cursor + 1) % rb.len :=
  wrap_succ h

lemma read_read_cursor {rb : RingBuffer} (h : rb.read_cursor < rb.len) :
    rb.read.2.read_cursor = (rb.read_cursor + 1) % rb.len :=
  wrap_succ h

/-! The write-history representation predicate: after any sequence of writes
    with history xs, the j-th most recent value (j below min(|xs|, len)) sits
    at position (write_cursor + len - 1 - j) % len of the backing Vec. -/

def RepAt (rb : RingBuffer) (xs : List ℚ) : Prop :=
  ∀ j, j < min xs.length rb.len →
    rb.data.getD ((rb.write_cursor + rb.len - 1 - j) % rb.len) 0
      = xs.getD (xs.length - 1 - j) 0

lemma repAt_nil (rb : RingBuffer) : RepAt rb [] := by
  intro j hj
  simp at hj

lemma repAt_write {rb : RingBuffer} {xs : List ℚ} (x : ℚ)
    (hlen : rb.data.length = rb.len) (hwc : rb.write_cursor < rb.len)
    (h : RepAt rb xs) : RepAt (rb.write x) (xs ++ [x]) := by
  intro j hj
  have hwcc : (rb.write x).write_cursor = (rb.write_cursor + 1) % rb.len :=
    wrap_succ hwc
  have hjL : j < rb.len := lt_of_lt_of_le hj (min_le_right _ _)
  have hjn : j < xs.length + 1 := by
    have := lt_of_lt_of_le hj (min_le_left _ _)
    simpa using this
  have hdata : (rb.write x).data = rb.data.set rb.write_cursor x := rfl
  have hlen2 : (rb.write x).len = rb.len := rfl
  have hxlen : (xs ++ [x]).length = xs.length + 1 := by simp
  rw [hwcc, hdata, hlen2, hxlen]
  have epos : ((rb.write_cursor + 1) % rb.len + rb.len - 1 - j) % rb.len
      = (rb.write_cursor + (rb.len - j)) % rb.len := by
    rw [show (rb.write_cursor + 1) % rb.len + rb.len - 1 - j
          = (rb.write_cursor + 1) % rb.len + (rb.len - 1 - j) by omega,
      Nat.mod_add_mod,
      show rb.write_cursor + 1 + (rb.len - 1 - j) = rb.write_cursor + (rb.len - j) by omega]
  rw [epos]
  rcases Nat.eq_zero_or_pos j with hj0 | hjpos
  · subst hj0
    rw [show rb.len - 0 = rb.len from rfl, Nat.add_mod_right, Nat.mod_eq_of_lt hwc]
    rw [getD_set_self _ _ _ (by rw [hlen]; exact hwc)]
    rw [show xs.length + 1 - 1 - 0 = xs.length by omega]
    exact (getD_append_len xs x).symm
  · have hne : (rb.write_cursor + (rb.len - j)) % rb.len ≠ rb.write_cursor :=
      add_mod_ne_self hwc (by omega) (by omega)
    rw [getD_set_ne _ _ _ _ (Ne.symm hne)]
    have hprev := h (j - 1) (by omega)
    rw [show rb.write_cursor + (rb.len - j) = rb.write_cursor + rb.len - 1 - (j - 1) by omega]
    rw [hprev]
    rw [show xs.length + 1 - 1 - j = xs.length - 1 - (j - 1) by omega]
    exact (getD_append_lt xs [x] _ (by omega)).symm

lemma writeList_cons (rb : RingBuffer) (x : ℚ) (xs : List ℚ) :
    writeList rb (x :: xs) = writeList (rb.write x) xs := rfl

lemma repAt_writeList : ∀ (xs : List ℚ) (rb : RingBuffer) (h : List ℚ),
    rb.data.length = rb.len → rb.write_cursor < rb.len → RepAt rb h →
    RepAt (writeList rb xs) (h ++ xs) ∧
    (writeList rb xs).write_cursor = (rb.write_cursor + xs.length) % rb.len ∧
    (writeList rb xs).len = rb.len ∧
    (writeList rb xs).data.length = rb.len ∧
    (writeList rb xs).read_cursor = rb.read_cursor
  | [], rb, h, hlen, hwc, hrep => by
    refine ⟨by simpa using hrep, ?_, rfl, hlen, rfl⟩
    simp [writeList, Nat.mod_eq_of_lt hwc]
  | x :: xs, rb, h, hlen, hwc, hrep => by
    have hL0 : 0 < rb.len := by omega
    have h1 : (rb.write x).data.length = (rb.write x).len := by
      show (rb.data.set _ _).length = rb.len
      rw [List.length_set]; exact hlen
    have e : (rb.write x).write_cursor = (rb.write_cursor + 1) % rb.len :=
      wrap_succ hwc
    have h2 : (rb.write x).write_cursor < (rb.write x).len := by
      rw [e]
      exact Nat.mod_lt _ hL0
    have h3 := repAt_write x hlen hwc hrep
    have IH := repAt_writeList xs (rb.write x) (h ++ [x]) h1 h2 h3
    refine ⟨?_, ?_, IH.2.2.1, IH.2.2.2.1, IH.2.2.2.2⟩
    · have := IH.1
      rwa [← List.append_cons] at this
    · rw [writeList_cons, IH.2.1, e]
      show ((rb.write_cursor + 1) % rb.len + xs.length) % rb.len = _
      rw [Nat.mod_add_mod,
        show rb.write_cursor + 1 + xs.length = rb.write_cursor + (x :: xs).length by
          simp; omega]

lemma writeList_resize (rb0 : RingBuffer) (L : ℕ) (v : ℚ) (xs : List ℚ) (hL : 0 < L) :
    RepAt (writeList (rb0.resize L v) xs) xs ∧
    (writeList (rb0.resize L v) xs).write_cursor = xs.length % L ∧
    (writeList (rb0.resize L v) xs).len = L ∧
    (writeList (rb0.resize L v) xs).data.length = L ∧
    (writeList (rb0.resize L v) xs).read_cursor = 0 := by
  have h := repAt_writeList xs (rb0.resize L v) []
    (by rw [resize_data_length, resize_len])
    (by rw [resize_write_cursor, resize_len]; exact hL)
    (repAt_nil _)
  simpa [resize_len, resize_write_cursor, resize_read_cursor] using h

/-! Characterization of read sequences. -/

lemma readList_spec : ∀ (m : ℕ) (rb : RingBuffer), 0 < rb.len → rb.read_cursor < rb.len →
    (readList rb m).1
      = List.ofFn (fun i : Fin m => rb.data.getD ((rb.read_cursor + (i : ℕ)) % rb.len) 0) ∧
    (readList rb m).2.read_cursor = (rb.read_cursor + m) % rb.len ∧
    (readList rb m).2.write_cursor = rb.write_cursor ∧
    (readList rb m).2.len = rb.len ∧
    (readList rb m).2.data = rb.data
  | 0, rb, hL, hrc => by
    refine ⟨by simp [readList], ?_, rfl, rfl, rfl⟩
    simpa [readList] using (Nat.mod_eq_of_lt hrc).symm
  | m + 1, rb, hL, hrc => by
    have e : rb.read.2.read_cursor = (rb.read_cursor + 1) % rb.len := wrap_succ hrc
    have hlen2 : rb.read.2.len = rb.len := rfl
    have hdata2 : rb.read.2.data = rb.data := rfl
    have hwc2 : rb.read.2.write_cursor = rb.write_cursor := rfl
    have IH := readList_spec m rb.read.2 (by rw [hlen2]; exact hL)
      (by rw [e, hlen2]; exact Nat.mod_lt _ hL)
    refine ⟨?_, ?_, IH.2.2.1, IH.2.2.2.1, IH.2.2.2.2⟩
    · show rb.read.1 :: (readList rb.read.2 m).1 = _
      rw [List.ofFn_succ, IH.1]
      congr 1
      · show rb.data.getD rb.read_cursor 0 = _
        have : (rb.read_cursor + ((0 : Fin (m + 1)) : ℕ)) % rb.len = rb.read_cursor := by
          simpa using Nat.mod_eq_of_lt hrc
        rw [this]
      · apply congrArg
        funext i
        rw [hdata2, hlen2, e, Nat.mod_add_mod]
        congr 2
        simp [Fin.val_succ]
        omega
    · show (readList rb.read.2 m).2.read_cursor = _
      rw [IH.2.1, hlen2, e, Nat.mod_add_mod]
      congr 1
      omega

lemma copyLoop_spec : ∀ (k : ℕ) (inp out : RingBuffer),
    copyLoop inp out k = ((readList inp k).2, writeList out (readList inp k).1)
  | 0, inp, out => rfl
  | k + 1, inp, out => by
    show copyLoop inp.read.2 (out.write inp.read.1) k = _
    rw [copyLoop_spec k inp.read.2 (out.write inp.read.1)]
    rfl

/-! Read-back lemmas: the last w written values can be recovered through
    open_window, and exactly L writes into a freshly resized ring of length L
    lay the values out in order. -/

lemma reads_after_open_window (rb0 : RingBuffer) (L w : ℕ) (v : ℚ) (xs : List ℚ)
    (hL : 0 < L) (hwL : w ≤ L) (hwn : w ≤ xs.length) :
    ((writeList (rb0.resize L v) xs).open_window w).read_cursor
      = ((writeList (rb0.resize L v) xs).write_cursor + L - w) % L ∧
    ((writeList (rb0.resize L v) xs).open_window w).write_cursor
      = (writeList (rb0.resize L v) xs).write_cursor ∧
    (readList ((writeList (rb0.resize L v) xs).open_window w) w).1
      = xs.drop (xs.length - w) := by
  obtain ⟨hrep, hwc, hlen, hdlen, -⟩ := writeList_resize rb0 L v xs hL
  set rb := writeList (rb0.resize L v) xs with hrb
  have hrc1 : (rb.open_window w).read_cursor = (rb.write_cursor + L - w) % L := by
    show (rb.write_cursor + rb.len - w) % rb.len = _
    rw [hlen]
  refine ⟨hrc1, rfl, ?_⟩
  have hlen1 : (rb.open_window w).len = L := hlen
  have hdata1 : (rb.open_window w).data = rb.data := rfl
  have hwc1 : (rb.open_window w).write_cursor = rb.write_cursor := rfl
  have hrcL : (rb.open_window w).read_cursor < L := by
    rw [hrc1]; exact Nat.mod_lt _ hL
  obtain ⟨hreads, -, -, -, -⟩ := readList_spec w (rb.open_window w)
    (by rw [hlen1]; exact hL) (by rw [hlen1]; exact hrcL)
  rw [hreads]
  refine list_eq_of_getD (by simp; omega) ?_
  intro i hi
  have hiw : i < w := by simpa using hi
  rw [getD_ofFn _ i (by simpa using hi)]
  simp only [Fin.val_mk]
  rw [hdata1, hlen1, hrc1, hwc, getD_drop]
  have hpos : ((xs.length % L + L - w) % L + i) % L
      = (xs.length % L + rb.len - 1 - (w - 1 - i)) % rb.len := by
    rw [hlen, Nat.mod_add_mod]
    congr 1
    omega
  rw [hpos, show xs.length % L = rb.write_cursor from hwc.symm]
  have := hrep (w - 1 - i) (by
    rw [hlen]
    have h1 : w - 1 - i < w := by omega
    exact lt_of_lt_of_le h1 (le_min hwn hwL))
  rw [this]
  congr 1
  omega

lemma writeList_full_data (out0 : RingBuffer) (w : ℕ) (v : ℚ) (ys : List ℚ)
    (hw : 0 < w) (hlen : ys.length = w) :
    (writeList (out0.resize w v) ys).data = ys ∧
    (writeList (out0.resize w v) ys).write_cursor = 0 ∧
    (writeList (out0.resize w v) ys).read_cursor = 0 := by
  obtain ⟨hrep, hwc, hl, hdlen, hrc⟩ := writeList_resize out0 w v ys hw
  refine ⟨?_, by rw [hwc, hlen, Nat.mod_self], hrc⟩
  refine list_eq_of_getD (by rw [hdlen, hlen]) ?_
  intro p hp
  have hpw : p < w := by rwa [hdlen] at hp
  have := hrep (w - 1 - p) (by rw [hl, hlen]; simp; omega)
  rw [hwc, hlen, Nat.mod_self, hl] at this
  rw [show 0 + w - 1 - (w - 1 - p) = p by omega, Nat.mod_eq_of_lt hpw] at this
  rw [this]
  congr 1
  omega

/-! Characterization of the smoothing loop. -/

lemma smoothStep_length (len : ℕ) (data : List ℚ) (i : ℕ) :
    (smoothStep len data i).length = data.length :=
  List.length_set _ _ _

lemma smoothLoop_length : ∀ (k len : ℕ) (data : List ℚ) (i : ℕ),
    (smoothLoop len data i k).length = data.length
  | 0, _, _, _ => rfl
  | k + 1, len, data, i => by
    show (smoothLoop len (smoothStep len data i) (i + 1) k).length = _
    rw [smoothLoop_length k, smoothStep_length]

lemma smoothLoop_untouched : ∀ (k len : ℕ) (data : List ℚ) (i p : ℕ),
    (∀ j, j < k → (i + j) % len ≠ p) →
    (smoothLoop len data i k).getD p 0 = data.getD p 0
  | 0, _, _, _, _, _ => rfl
  | k + 1, len, data, i, p, h => by
    show (smoothLoop len (smoothStep len data i) (i + 1) k).getD p 0 = _
    rw [smoothLoop_untouched k len _ (i + 1) p (fun j hj => by
      have h2 := h (j + 1) (by omega)
      rwa [show i + (j + 1) = i + 1 + j by omega] at h2)]
    exact getD_set_ne _ _ _ _ (by simpa using h 0 (by omega))

lemma smoothLoop_add : ∀ (a len : ℕ) (data : List ℚ) (i b : ℕ),
    smoothLoop len data i (a + b) = smoothLoop len (smoothLoop len data i a) (i + a) b
  | 0, len, data, i, b => by
    rw [Nat.zero_add, Nat.add_zero]
    rfl
  | a + 1, len, data, i, b => by
    rw [show a + 1 + b = a + b + 1 by omega]
    show smoothLoop len (smoothStep len data i) (i + 1) (a + b) = _
    rw [smoothLoop_add a len (smoothStep len data i) (i + 1) b,
      show i + (a + 1) = i + 1 + a by omega]
    rfl

lemma smoothLoop_succ_last (k len : ℕ) (data : List ℚ) (i : ℕ) :
    smoothLoop len data i (k + 1) = smoothStep len (smoothLoop len data i k) (i + k) := by
  rw [smoothLoop_add k len data i 1]
  rfl

lemma smoothLoop_touched (k len : ℕ) (hk : k ≤ len) (j : ℕ) (hj : j < k)
    (data : List ℚ) (i : ℕ) :
    (smoothLoop len data i k).getD ((i + j) % len) 0
      = (smoothLoop len data i (j + 1)).getD ((i + j) % len) 0 := by
  have e : k = (j + 1) + (k - j - 1) := by omega
  rw [e, smoothLoop_add (j + 1) len data i (k - j - 1)]
  apply smoothLoop_untouched
  intro j2 hj2
  rw [show i + (j + 1) + j2 = (i + j) + (1 + j2) by omega]
  exact add_mod_ne (by omega) (by omega)

lemma smoothLoop_val (len : ℕ) (data : List ℚ) (i j : ℕ) (hlen : 0 < len)
    (hdlen : len ≤ data.length) :
    (smoothLoop len data i (j + 1)).getD ((i + j) % len) 0
      = (1 / 2 : ℚ) * ((smoothLoop len data i j).getD ((i + j) % len) 0
          + (smoothLoop len data i j).getD ((i + j - 1) % len) 0) := by
  rw [smoothLoop_succ_last]
  unfold smoothStep
  rw [getD_set_self _ _ _ (by
    rw [smoothLoop_length]
    exact lt_of_lt_of_le (Nat.mod_lt _ hlen) hdlen)]

lemma smoothLoop_final_zero (k len : ℕ) (data : List ℚ) (i : ℕ)
    (hk : k ≤ len) (hk0 : 0 < k) (hlen : data.length = len) :
    (smoothLoop len data i k).getD (i % len) 0
      = (1 / 2 : ℚ) * (data.getD (i % len) 0 + data.getD ((i - 1) % len) 0) := by
  have h0 : 0 < len := by omega
  have t := smoothLoop_touched k len hk 0 hk0 data i
  have v := smoothLoop_val len data i 0 h0 (by omega)
  simp only [Nat.add_zero] at t v
  rw [t, v]
  rfl

lemma smoothLoop_final_succ (k len : ℕ) (data : List ℚ) (i j : ℕ)
    (hk : k ≤ len) (hj : j + 1 < k) (hlen : data.length = len) :
    (smoothLoop len data i k).getD ((i + (j + 1)) % len) 0
      = (1 / 2 : ℚ) * (data.getD ((i + (j + 1)) % len) 0
          + (smoothLoop len data i k).getD ((i + j) % len) 0) := by
  have h0 : 0 < len := by omega
  have t1 := smoothLoop_touched k len hk (j + 1) hj data i
  have t2 := smoothLoop_touched k len hk j (by omega) data i
  have v := smoothLoop_val len data i (j + 1) h0 (by omega)
  have u : (smoothLoop len data i (j + 1)).getD ((i + (j + 1)) % len) 0
      = data.getD ((i + (j + 1)) % len) 0 := by
    apply smoothLoop_untouched
    intro j2 hj2
    rw [show i + (j + 1) = (i + j2) + (j + 1 - j2) by omega]
    exact Ne.symm (add_mod_ne (by omega) (by omega))
  rw [t1, v, show i + (j + 1) - 1 = i + j by omega, ← t2, u]

/-! Field-level facts about smooth. -/

lemma smooth_read_cursor (rb : RingBuffer) (d : ℕ) :
    (rb.smooth d).read_cursor = rb.read_cursor := rfl

lemma smooth_write_cursor (rb : RingBuffer) (d : ℕ) :
    (rb.smooth d).write_cursor = rb.write_cursor := rfl

lemma smooth_len (rb : RingBuffer) (d : ℕ) : (rb.smooth d).len = rb.len := rfl

lemma smooth_data_length (rb : RingBuffer) (d : ℕ) :
    (rb.smooth d).data.length = rb.data.length := by
  show (smoothLoop _ _ _ _).length = _
  rw [smoothLoop_length]

/-! Step equations for process_sample and process_events. -/

lemma processSample_eq_frozen (s : Zamerzika) (c : Fin CHANNELS) (x : ℚ)
    (h : s.note.isSome) :
    processSample s c x =
      (((s.output c).read).1,
       { s with
         input := Function.update s.input c ((s.input c).write x)
         output := Function.update s.output c ((s.output c).read).2 }) := by
  simp only [processSample]
  rw [if_pos h]

lemma processSample_eq_release (s : Zamerzika) (c : Fin CHANNELS) (x : ℚ)
    (h1 : s.note = none) (h2 : 0 < s.xfade_countdown c) :
    processSample s c x =
      ((s.xfade_countdown c : ℚ) / (XFADE_FRAMES : ℚ) * ((s.output c).read).1
         + (1 - (s.xfade_countdown c : ℚ) / (XFADE_FRAMES : ℚ)) * x,
       { s with
         input := Function.update s.input c ((s.input c).write x)
         output := Function.update s.output c ((s.output c).read).2
         xfade_countdown := Function.update s.xfade_countdown c (s.xfade_countdown c - 1) }) := by
  simp only [processSample]
  rw [if_neg (by simp [h1]), if_pos h2]

lemma processSample_eq_live (s : Zamerzika) (c : Fin CHANNELS) (x : ℚ)
    (h1 : s.note = none) (h2 : s.xfade_countdown c = 0) :
    processSample s c x =
      (x, { s with input := Function.update s.input c ((s.input c).write x) }) := by
  simp only [processSample]
  rw [if_neg (by simp [h1]), if_neg (by omega)]

lemma processEvent_noteOff (s : Zamerzika) (ev : MidiEvent) (h : ev.data0 = 128) :
    processEvent s ev = noteOff s ev.data1 := by
  unfold processEvent
  rw [if_pos h]

lemma processEvent_noteOn (s : Zamerzika) (ev : MidiEvent) (h : ev.data0 = 144) :
    processEvent s ev = noteOn s ev.data1 := by
  unfold processEvent
  rw [if_neg (by omega), if_pos h]

lemma processEvent_other (s : Zamerzika) (ev : MidiEvent)
    (h1 : ev.data0 ≠ 128) (h2 : ev.data0 ≠ 144) : processEvent s ev = s := by
  unfold processEvent
  rw [if_neg h1, if_neg h2]

lemma noteOff_match (s : Zamerzika) (p n : ℕ) (hn : s.note = some n) (h : n = p) :
    noteOff s p = { s with note := none, xfade_countdown := fun _ => XFADE_FRAMES } := by
  simp [noteOff, hn, h]

lemma noteOff_mismatch (s : Zamerzika) (p n : ℕ) (hn : s.note = some n) (h : n ≠ p) :
    noteOff s p = s := by
  simp [noteOff, hn, h]

lemma noteOff_none (s : Zamerzika) (p : ℕ) (hn : s.note = none) : noteOff s p = s := by
  simp [noteOff, hn]

/-! Per-channel output of process_sample streams. -/

lemma runChannel_frozen : ∀ (stream : List ℚ) (s : Zamerzika) (c : Fin CHANNELS) (p : ℕ),
    s.note = some p →
    (runChannel s c stream).1 = (readList (s.output c) stream.length).1
  | [], _, _, _, _ => rfl
  | x :: stream, s, c, p, h => by
    have hsome : s.note.isSome := by rw [h]; rfl
    have e := processSample_eq_frozen s c x hsome
    show (processSample s c x).1 :: (runChannel (processSample s c x).2 c stream).1 = _
    rw [e]
    show ((s.output c).read).1 :: _ = ((s.output c).read).1 :: _
    congr 1
    have hnote2 : (({ s with
        input := Function.update s.input c ((s.input c).write x)
        output := Function.update s.output c ((s.output c).read).2 } : Zamerzika)).note
        = some p := h
    have hout : (({ s with
        input := Function.update s.input c ((s.input c).write x)
        output := Function.update s.output c ((s.output c).read).2 } : Zamerzika)).output c
        = ((s.output c).read).2 :=
      Function.update_same c ((s.output c).read).2 s.output
    rw [runChannel_frozen stream _ c p hnote2, hout]

lemma runChannel_length : ∀ (stream : List ℚ) (s : Zamerzika) (c : Fin CHANNELS),
    (runChannel s c stream).1.length = stream.length
  | [], _, _ => rfl
  | _ :: stream, s, c => by
    show (runChannel (processSample s c _).2 c stream).1.length + 1 = stream.length + 1
    rw [runChannel_length stream]

lemma runChannel_release : ∀ (stream : List ℚ) (s : Zamerzika) (c : Fin CHANNELS) (m : ℕ),
    s.note = none → s.xfade_countdown c = m →
    ∀ k, k < stream.length →
      (runChannel s c stream).1.getD k 0 =
        if k < m then
          ((m - k : ℕ) : ℚ) / (XFADE_FRAMES : ℚ) * ((readList (s.output c) m).1.getD k 0)
            + (1 - ((m - k : ℕ) : ℚ) / (XFADE_FRAMES : ℚ)) * stream.getD k 0
        else stream.getD k 0
  | [], _, _, _, _, _ => by
    intro k hk
    simp at hk
  | x :: stream, s, c, m, h1, h2 => by
    intro k hk
    cases m with
    | zero =>
      have e := processSample_eq_live s c x h1 h2
      show ((processSample s c x).1 :: (runChannel (processSample s c x).2 c stream).1).getD k 0 = _
      rw [e]
      have hnote2 : (({ s with
          input := Function.update s.input c ((s.input c).write x) } : Zamerzika)).note
          = none := h1
      have hcd2 : (({ s with
          input := Function.update s.input c ((s.input c).write x) } : Zamerzika)).xfade_countdown c
          = 0 := h2
      cases k with
      | zero => simp
      | succ k =>
        rw [List.getD_cons_succ, List.getD_cons_succ]
        rw [runChannel_release stream _ c 0 hnote2 hcd2 k (by simpa using hk)]
        simp
    | succ m' =>
      have e := processSample_eq_release s c x h1 (by omega)
      show ((processSample s c x).1 :: (runChannel (processSample s c x).2 c stream).1).getD k 0 = _
      rw [e]
      cases k with
      | zero =>
        rw [List.getD_cons_zero, if_pos (by omega)]
        rw [h2]
        show ((m' + 1 : ℕ) : ℚ) / (XFADE_FRAMES : ℚ) * ((s.output c).read).1
            + (1 - ((m' + 1 : ℕ) : ℚ) / (XFADE_FRAMES : ℚ)) * x = _
        rw [show m' + 1 - 0 = m' + 1 by omega]
        rw [show (readList (s.output c) (m' + 1)).1
            = ((s.output c).read).1 :: (readList ((s.output c).read).2 m').1 from rfl]
        rw [List.getD_cons_zero, List.getD_cons_zero]
      | succ k =>
        rw [List.getD_cons_succ]
        set s2 : Zamerzika := { s with
          input := Function.update s.input c ((s.input c).write x)
          output := Function.update s.output c ((s.output c).read).2
          xfade_countdown := Function.update s.xfade_countdown c (s.xfade_countdown c - 1) }
          with hs2
        have hnote2 : s2.note = none := h1
        have hcd2 : s2.xfade_countdown c = m' := by
          show Function.update s.xfade_countdown c (s.xfade_countdown c - 1) c = m'
          rw [Function.update_same, h2]
          omega
        have hout2 : s2.output c = ((s.output c).read).2 := by
          show Function.update s.output c ((s.output c).read).2 c = _
          rw [Function.update_same]
        rw [runChannel_release stream s2 c m' hnote2 hcd2 k (by simpa using hk)]
        by_cases hkm : k < m'
        · rw [if_pos hkm, if_pos (by omega)]
          rw [hout2]
          rw [show (readList (s.output c) (m' + 1)).1
              = ((s.output c).read).1 :: (readList ((s.output c).read).2 m').1 from rfl]
          rw [List.getD_cons_succ, List.getD_cons_succ]
          rw [show m' + 1 - (k + 1) = m' - k by omega]
        · rw [if_neg hkm, if_neg (by omega), List.getD_cons_succ]

/-! Frequency and window-size facts. -/

lemma midi_pitch_to_freq_pos (p : ℕ) : 0 < midi_pitch_to_freq p := by
  unfold midi_pitch_to_freq
  positivity

lemma midi_pitch_to_freq_69 : midi_pitch_to_freq 69 = 440 := by
  unfold midi_pitch_to_freq
  rw [show ((((69:ℕ)):ℝ) - 69) / 12 = 0 by norm_num, Real.rpow_zero]
  norm_num

lemma midi_pitch_to_freq_81 : midi_pitch_to_freq 81 = 880 := by
  unfold midi_pitch_to_freq
  rw [show ((((81:ℕ)):ℝ) - 69) / 12 = 1 by norm_num, Real.rpow_one]
  norm_num

lemma midi_pitch_to_freq_57 : midi_pitch_to_freq 57 = 220 := by
  unfold midi_pitch_to_freq
  rw [show ((((57:ℕ)):ℝ) - 69) / 12 = -1 by norm_num, Real.rpow_neg_one]
  norm_num

lemma windowSizeOf_48000_69 : windowSizeOf 48000 69 = 109 := by
  unfold windowSizeOf
  rw [midi_pitch_to_freq_69, round_eq,
    show ((48000:ℝ) / 440 + 1/2) = 2411/22 by norm_num,
    show ⌊(2411/22 : ℝ)⌋ = 109 from Int.floor_eq_iff.mpr (by norm_num)]
  rfl

lemma midi_pitch_to_freq_mono_zero (p : ℕ) :
    midi_pitch_to_freq 0 ≤ midi_pitch_to_freq p := by
  unfold midi_pitch_to_freq
  have hp : ((0:ℕ):ℝ) ≤ (p:ℝ) := by exact_mod_cast Nat.zero_le p
  apply mul_le_mul_of_nonneg_right _ (by norm_num)
  apply Real.rpow_le_rpow_of_exponent_le (by norm_num)
  push_cast at hp ⊢
  linarith

lemma windowSizeOf_le_max (p : ℕ) (sr : ℝ) (h0 : 0 ≤ sr) (h1 : sr ≤ 96000) :
    windowSizeOf sr p ≤ MAX_WINDOW_SIZE := by
  unfold windowSizeOf
  rw [Int.toNat_le]
  have hf0 : 0 < midi_pitch_to_freq 0 := midi_pitch_to_freq_pos 0
  have hfp : 0 < midi_pitch_to_freq p := midi_pitch_to_freq_pos p
  have hmono := midi_pitch_to_freq_mono_zero p
  have key : sr / midi_pitch_to_freq p ≤ 96000 / midi_pitch_to_freq 0 :=
    div_le_div₀ (by norm_num) h1 hf0 hmono
  have hp4 : (0:ℝ) < (2:ℝ) ^ ((23:ℝ)/4) := Real.rpow_pos_of_pos (by norm_num) _
  have hbound : (96000:ℝ) / midi_pitch_to_freq 0 < 23485/2 := by
    have hlt : (2:ℝ) ^ ((23:ℝ)/4) < 258335/4800 := by
      refine lt_of_pow_lt_pow_left₀ 4 (by norm_num) ?_
      have h4 : ((2:ℝ) ^ ((23:ℝ)/4)) ^ (4:ℕ) = (2:ℝ) ^ (23:ℕ) := by
        rw [← Real.rpow_natCast ((2:ℝ) ^ ((23:ℝ)/4)) 4,
          ← Real.rpow_mul (by norm_num : (0:ℝ) ≤ 2),
          show ((23:ℝ)/4 * ((4:ℕ):ℝ) : ℝ) = ((23:ℕ):ℝ) by norm_num, Real.rpow_natCast]
      rw [h4]
      norm_num
    have hkey2 : (96000:ℝ) * ((2:ℝ) ^ ((23:ℝ)/4)) < (23485/2) * 440 := by
      calc (96000:ℝ) * ((2:ℝ) ^ ((23:ℝ)/4))
          < 96000 * (258335/4800) := mul_lt_mul_of_pos_left hlt (by norm_num)
        _ = (23485/2) * 440 := by norm_num
    have hexp : midi_pitch_to_freq 0 = ((2:ℝ) ^ ((23:ℝ)/4))⁻¹ * 440 := by
      unfold midi_pitch_to_freq
      rw [show ((((0:ℕ)):ℝ) - 69) / 12 = -((23:ℝ)/4) by norm_num,
        Real.rpow_neg (by norm_num : (0:ℝ) ≤ 2)]
    rw [div_lt_iff hf0, hexp,
      show (23485:ℝ)/2 * (((2:ℝ) ^ ((23:ℝ)/4))⁻¹ * 440)
          = ((23485:ℝ)/2 * 440) / ((2:ℝ) ^ ((23:ℝ)/4)) by
        rw [div_eq_mul_inv]; ring,
      lt_div_iff hp4]
    exact hkey2
  have hlt2 : sr / midi_pitch_to_freq p < 23485/2 := lt_of_le_of_lt key hbound
  rw [round_eq]
  have hfl : ⌊sr / midi_pitch_to_freq p + 1/2⌋ < (11743:ℤ) := by
    rw [Int.floor_lt]
    push_cast
    linarith
  show ⌊sr / midi_pitch_to_freq p + 1/2⌋ ≤ (11742:ℤ)
  omega

/-! Preservation of well-formedness by the ring-buffer operations. -/

lemma wf_write {rb : RingBuffer} (h : rb.WF) (x : ℚ) : (rb.write x).WF := by
  obtain ⟨h1, h2, h3⟩ := h
  have e : (rb.write x).write_cursor = (rb.write_cursor + 1) % rb.len := wrap_succ h3
  refine ⟨?_, h2, ?_⟩
  · show (rb.data.set _ _).length = rb.len
    rw [List.length_set]; exact h1
  · show (rb.write x).write_cursor < rb.len
    rw [e]; exact Nat.mod_lt _ (by omega)

lemma wf_read {rb : RingBuffer} (h : rb.WF) : rb.read.2.WF := by
  obtain ⟨h1, h2, h3⟩ := h
  have e : rb.read.2.read_cursor = (rb.read_cursor + 1) % rb.len := wrap_succ h2
  refine ⟨h1, ?_, h3⟩
  show rb.read.2.read_cursor < rb.len
  rw [e]; exact Nat.mod_lt _ (by omega)

lemma wf_open_window {rb : RingBuffer} (h : rb.WF) (w : ℕ) : (rb.open_window w).WF := by
  obtain ⟨h1, h2, h3⟩ := h
  exact ⟨h1, Nat.mod_lt _ (by omega), h3⟩

lemma wf_resize (rb : RingBuffer) (n : ℕ) (hn : 0 < n) (v : ℚ) : (rb.resize n v).WF :=
  ⟨resize_data_length rb n v, by rw [resize_read_cursor, resize_len]; exact hn,
   by rw [resize_write_cursor, resize_len]; exact hn⟩

lemma wf_smooth {rb : RingBuffer} (h : rb.WF) (d : ℕ) : (rb.smooth d).WF := by
  obtain ⟨h1, h2, h3⟩ := h
  refine ⟨?_, h2, h3⟩
  rw [smooth_data_length, smooth_len, h1]

/-! Claim theorems. -/

/-- C4 counterexample: on a freshly resized RingBuffer of length L = 1, two
    writes followed by two reads do not return the written values in order
    (the second write overwrites the first), refuting the claim as stated
    for unrestricted write counts. -/
theorem claim_C4_counterexample :
    (readList (writeList (RingBuffer.empty.resize 1 0) [1, 2]) 2).1 ≠ [(1 : ℚ), 2] := by
  decide

/-- C4 (amended): for n ≤ L writes on a freshly resized RingBuffer of length
    L ≥ 1, the next n reads return exactly the written values in order, and
    when n = L, further reads repeat the written sequence cyclically. -/
theorem claim_C4_amended (rb0 : RingBuffer) (L : ℕ) (v : ℚ) (xs : List ℚ)
    (hL : 0 < L) (hn : xs.length ≤ L) :
    (readList (writeList (rb0.resize L v) xs) xs.length).1 = xs ∧
    (xs.length = L → ∀ m : ℕ,
      (readList (writeList (rb0.resize L v) xs) m).1
        = List.ofFn (fun i : Fin m => xs.getD ((i : ℕ) % L) 0)) := by
  obtain ⟨hrep, hwc, hlen, hdlen, hrc⟩ := writeList_resize rb0 L v xs hL
  set rb := writeList (rb0.resize L v) xs with hrb
  have hdata : ∀ i, i < xs.length → rb.data.getD i 0 = xs.getD i 0 := by
    intro i hi
    have hiL : i < L := by omega
    have h := hrep (xs.length - 1 - i) (by rw [hlen]; simp; omega)
    rw [hwc, hlen] at h
    rw [show xs.length % L + L - 1 - (xs.length - 1 - i)
        = xs.length % L + (L - 1 - (xs.length - 1 - i)) by omega,
      Nat.mod_add_mod,
      show xs.length + (L - 1 - (xs.length - 1 - i)) = L + i by omega,
      Nat.add_mod_left, Nat.mod_eq_of_lt hiL,
      show xs.length - 1 - (xs.length - 1 - i) = i by omega] at h
    exact h
  constructor
  · obtain ⟨hreads, -, -, -, -⟩ := readList_spec xs.length rb
      (by rw [hlen]; exact hL) (by rw [hrc, hlen]; exact hL)
    rw [hreads]
    refine list_eq_of_getD (by simp) ?_
    intro i hi
    have hi' : i < xs.length := by simpa using hi
    rw [getD_ofFn _ i (by simpa using hi)]
    simp only [Fin.val_mk]
    rw [hrc, hlen, Nat.zero_add, Nat.mod_eq_of_lt (by omega)]
    exact hdata i hi'
  · intro hnL m
    obtain ⟨hreads, -, -, -, -⟩ := readList_spec m rb
      (by rw [hlen]; exact hL) (by rw [hrc, hlen]; exact hL)
    rw [hreads]
    apply congrArg
    funext i
    rw [hrc, hlen, Nat.zero_add]
    exact hdata ((i : ℕ) % L) (by rw [hnL]; exact Nat.mod_lt _ hL)

/-- C4 witness: the amended claim evaluated at L = 2 with writes [3, 4]. -/
theorem claim_C4_witness :
    (0 < 2 ∧ ([(3:ℚ), 4]).length ≤ 2) ∧
    (readList (writeList (RingBuffer.empty.resize 2 0) [(3:ℚ), 4]) ([(3:ℚ), 4]).length).1
      = [(3:ℚ), 4] :=
  ⟨⟨by decide, by decide⟩,
   (claim_C4_amended RingBuffer.empty 2 0 [(3:ℚ), 4] (by decide) (by decide)).1⟩

/-- C5 (confirmed): after at least window_size writes since the last resize of
    a ring of logical length L, open_window(w) sets the read cursor to
    (write_cursor + L - w) mod L without touching the write cursor, and the
    next w reads return exactly the last w written values in order. -/
theorem claim_C5 (rb0 : RingBuffer) (L w : ℕ) (v : ℚ) (xs : List ℚ)
    (hL : 0 < L) (hwL : w ≤ L) (hwn : w ≤ xs.length) :
    ((writeList (rb0.resize L v) xs).open_window w).read_cursor
      = ((writeList (rb0.resize L v) xs).write_cursor + L - w) % L ∧
    ((writeList (rb0.resize L v) xs).open_window w).write_cursor
      = (writeList (rb0.resize L v) xs).write_cursor ∧
    (readList ((writeList (rb0.resize L v) xs).open_window w) w).1
      = xs.drop (xs.length - w) :=
  reads_after_open_window rb0 L w v xs hL hwL hwn

/-- C5 witness: the claim evaluated at L = 2, w = 1, writes [5, 6]. -/
theorem claim_C5_witness :
    (readList ((writeList (RingBuffer.empty.resize 2 0) [(5:ℚ), 6]).open_window 1) 1).1
      = [(6:ℚ)] :=
  (claim_C5 RingBuffer.empty 2 1 0 [(5:ℚ), 6] (by decide) (by decide) (by decide)).2.2

/-- C6 (confirmed): a note-off event whose pitch differs from the currently
    held pitch, or arriving while no note is held, leaves the entire engine
    state unchanged. -/
theorem claim_C6 (s : Zamerzika) (ev : MidiEvent) (h : ev.data0 = 128)
    (hmis : ∀ n, s.note = some n → n ≠ ev.data1) : processEvent s ev = s := by
  rw [processEvent_noteOff s ev h]
  rcases hn : s.note with _ | n
  · exact noteOff_none s ev.data1 hn
  · exact noteOff_mismatch s ev.data1 n hn (hmis n hn)

/-- C6 witness: a note-off for pitch 70 while pitch 69 is held is a no-op. -/
theorem claim_C6_witness :
    processEvent { Zamerzika.init with note := some 69 } ⟨128, 70, 0⟩
      = { Zamerzika.init with note := some 69 } :=
  claim_C6 _ _ rfl (by
    intro n hn
    have h2 : (69 : ℕ) = n := Option.some.inj hn
    show n ≠ 70
    omega)

/-- C7 (confirmed): midi_pitch_to_freq agrees with the equal-tempered formula
    440 * 2^((pitch - 69)/12) anchored at pitch 69 = 440 Hz, with pitch 81
    mapping to 880 Hz and pitch 57 to 220 Hz, and a note-on computes
    window_size = round(sample_rate / freq(pitch)). -/
theorem claim_C7 :
    (∀ p : ℕ, p ≤ 127 → midi_pitch_to_freq p = freqSpec p) ∧
    midi_pitch_to_freq 69 = 440 ∧
    midi_pitch_to_freq 81 = 880 ∧
    midi_pitch_to_freq 57 = 220 ∧
    ∀ (s : Zamerzika) (ev : MidiEvent), ev.data0 = 144 →
      (processEvent s ev).window_size
        = (round (s.sample_rate / midi_pitch_to_freq ev.data1)).toNat := by
  refine ⟨?_, midi_pitch_to_freq_69, midi_pitch_to_freq_81, midi_pitch_to_freq_57, ?_⟩
  · intro p _
    unfold midi_pitch_to_freq freqSpec
    ring
  · intro s ev h
    rw [processEvent_noteOn s ev h]
    rfl

/-- C7 witness: the theorem applied at pitch 69 and a concrete note-on. -/
theorem claim_C7_witness :
    (69 ≤ 127 ∧ midi_pitch_to_freq 69 = freqSpec 69) ∧
    (processEvent Zamerzika.init ⟨144, 69, 0⟩).window_size
      = (round (Zamerzika.init.sample_rate / midi_pitch_to_freq 69)).toNat :=
  ⟨⟨by decide, claim_C7.1 69 (by decide)⟩,
   claim_C7.2.2.2.2 Zamerzika.init ⟨144, 69, 0⟩ rfl⟩

/-- C8 (confirmed): for every pitch 0-127 and sample rate in [0, 96000], the
    note-on window size never exceeds MAX_WINDOW_SIZE (the input ring length),
    so the machine subtraction in open_window cannot underflow, the output
    resize stays within the preallocated maximum, and on well-formed rings
    every data[] access of write, read, open_window and smooth is in bounds
    (well-formedness is preserved by all operations). -/
theorem claim_C8 (p : ℕ) (sr : ℝ) (hp : p ≤ 127) (h0 : 0 ≤ sr) (h1 : sr ≤ 96000) :
    windowSizeOf sr p ≤ MAX_WINDOW_SIZE ∧
    (∀ rb : RingBuffer, rb.len = MAX_WINDOW_SIZE →
      windowSizeOf sr p ≤ rb.write_cursor + rb.len) ∧
    (∀ rb : RingBuffer, rb.WF →
      rb.write_cursor < rb.data.length ∧
      rb.read_cursor < rb.data.length ∧
      (∀ x, (rb.write x).WF) ∧
      rb.read.2.WF ∧
      (rb.open_window (windowSizeOf sr p)).WF ∧
      (∀ d, (rb.smooth d).WF)) ∧
    (0 < windowSizeOf sr p → ∀ rb : RingBuffer, (rb.resize (windowSizeOf sr p) 0).WF) := by
  have hmax : windowSizeOf sr p ≤ 11742 := windowSizeOf_le_max p sr h0 h1
  refine ⟨hmax, ?_, ?_, ?_⟩
  · intro rb hlen
    rw [hlen]
    exact le_trans hmax (Nat.le_add_left _ _)
  · intro rb hwf
    obtain ⟨ha, hb, hc⟩ := hwf
    exact ⟨by omega, by omega, fun x => wf_write ⟨ha, hb, hc⟩ x, wf_read ⟨ha, hb, hc⟩,
      wf_open_window ⟨ha, hb, hc⟩ _, fun d => wf_smooth ⟨ha, hb, hc⟩ d⟩
  · intro hw rb
    exact wf_resize rb _ hw 0

/-- C8 witness: the bound evaluated at pitch 69 and sample rate 48000. -/
theorem claim_C8_witness : windowSizeOf 48000 69 ≤ MAX_WINDOW_SIZE :=
  (claim_C8 69 48000 (by decide) (by norm_num) (by norm_num)).1

/-- C9 (confirmed): smooth(depth) leaves both cursors and the length
    unchanged, smooth(0) is a no-op, and over the depth positions (capped to
    the logical length) starting at read_cursor it blends each sample with
    its immediate circular predecessor by the equal-weight average
    0.5 * current + 0.5 * previous (the loop runs in place, so from the
    second position on the predecessor is the already blended value);
    positions outside the blended range are unchanged. -/
theorem claim_C9 (rb : RingBuffer) (depth : ℕ) :
    (rb.smooth depth).read_cursor = rb.read_cursor ∧
    (rb.smooth depth).write_cursor = rb.write_cursor ∧
    (rb.smooth depth).len = rb.len ∧
    rb.smooth 0 = rb ∧
    (rb.data.length = rb.len → rb.read_cursor < rb.len →
      (rb.smooth depth).data.length = rb.len ∧
      (0 < min depth rb.len →
        (rb.smooth depth).data.getD rb.read_cursor 0
          = (1/2 : ℚ) * rb.data.getD rb.read_cursor 0
            + (1/2 : ℚ) * rb.data.getD ((rb.read_cursor + rb.len - 1) % rb.len) 0) ∧
      (∀ j, 0 < j → j < min depth rb.len →
        (rb.smooth depth).data.getD ((rb.read_cursor + j) % rb.len) 0
          = (1/2 : ℚ) * rb.data.getD ((rb.read_cursor + j) % rb.len) 0
            + (1/2 : ℚ) * (rb.smooth depth).data.getD ((rb.read_cursor + (j - 1)) % rb.len) 0) ∧
      (∀ q, q < rb.len → (∀ j, j < min depth rb.len → (rb.read_cursor + j) % rb.len ≠ q) →
        (rb.smooth depth).data.getD q 0 = rb.data.getD q 0)) := by
  refine ⟨rfl, rfl, rfl, ?_, ?_⟩
  · unfold RingBuffer.smooth
    rw [Nat.zero_min]
    rfl
  · intro hlen hrc
    have hL0 : 0 < rb.len := by omega
    refine ⟨by rw [smooth_data_length, hlen], ?_, ?_, ?_⟩
    · intro hd
      have hz := smoothLoop_final_zero (min depth rb.len) rb.len rb.data
        (rb.read_cursor + rb.len) (min_le_right _ _) hd hlen
      have e1 : (rb.read_cursor + rb.len) % rb.len = rb.read_cursor := by
        rw [Nat.add_mod_right]
        exact Nat.mod_eq_of_lt hrc
      rw [e1] at hz
      have hval : (rb.smooth depth).data.getD rb.read_cursor 0
          = (1/2 : ℚ) * (rb.data.getD rb.read_cursor 0
              + rb.data.getD ((rb.read_cursor + rb.len - 1) % rb.len) 0) := hz
      rw [hval]
      ring
    · intro j hj0 hjd
      have hs := smoothLoop_final_succ (min depth rb.len) rb.len rb.data
        (rb.read_cursor + rb.len) (j - 1) (min_le_right _ _) (by omega) hlen
      have e2 : (rb.read_cursor + rb.len + (j - 1 + 1)) % rb.len
          = (rb.read_cursor + j) % rb.len := by
        rw [show rb.read_cursor + rb.len + (j - 1 + 1) = (rb.read_cursor + j) + rb.len by omega,
          Nat.add_mod_right]
      have e3 : (rb.read_cursor + rb.len + (j - 1)) % rb.len
          = (rb.read_cursor + (j - 1)) % rb.len := by
        rw [show rb.read_cursor + rb.len + (j - 1) = (rb.read_cursor + (j - 1)) + rb.len by omega,
          Nat.add_mod_right]
      rw [e2, e3] at hs
      have hval : (rb.smooth depth).data.getD ((rb.read_cursor + j) % rb.len) 0
          = (1/2 : ℚ) * (rb.data.getD ((rb.read_cursor + j) % rb.len) 0
              + (rb.smooth depth).data.getD ((rb.read_cursor + (j - 1)) % rb.len) 0) := hs
      rw [hval]
      ring
    · intro q hq hq2
      have hu : (smoothLoop rb.len rb.data (rb.read_cursor + rb.len)
          (min depth rb.len)).getD q 0 = rb.data.getD q 0 := by
        apply smoothLoop_untouched
        intro j hj
        rw [show rb.read_cursor + rb.len + j = (rb.read_cursor + j) + rb.len by omega,
          Nat.add_mod_right]
        exact hq2 j hj
      exact hu

/-- C9 witness: smooth applied to a concrete two-element ring. -/
theorem claim_C9_witness :
    ((⟨0, 0, 2, [1, 3]⟩ : RingBuffer).smooth 0 = ⟨0, 0, 2, [1, 3]⟩) ∧
    ((⟨0, 0, 2, [1, 3]⟩ : RingBuffer).smooth 1).data.length = 2 :=
  ⟨(claim_C9 ⟨0, 0, 2, [1, 3]⟩ 0).2.2.2.1,
   ((claim_C9 ⟨0, 0, 2, [1, 3]⟩ 1).2.2.2.2 (by decide) (by decide)).1⟩

/-- C10 (confirmed): any event with status byte exactly 0x90 acts as a
    note-on regardless of the velocity byte: it sets the held note, computes
    the window, recaptures the output rings, never clears the held note and
    never arms or changes the release countdown. -/
theorem claim_C10 (s : Zamerzika) (p v v' : ℕ) :
    processEvent s ⟨144, p, v⟩ = noteOn s p ∧
    processEvent s ⟨144, p, v⟩ = processEvent s ⟨144, p, v'⟩ ∧
    (processEvent s ⟨144, p, v⟩).note = some p ∧
    (processEvent s ⟨144, p, v⟩).window_size = windowSizeOf s.sample_rate p ∧
    (processEvent s ⟨144, p, v⟩).xfade_countdown = s.xfade_countdown ∧
    ∀ c, (processEvent s ⟨144, p, v⟩).output c
        = (noteOnChannel (s.input c) (s.output c) (windowSizeOf s.sample_rate p)).2 := by
  have e : processEvent s ⟨144, p, v⟩ = noteOn s p :=
    processEvent_noteOn s ⟨144, p, v⟩ rfl
  have e' : processEvent s ⟨144, p, v'⟩ = noteOn s p :=
    processEvent_noteOn s ⟨144, p, v'⟩ rfl
  exact ⟨e, by rw [e, e'], by rw [e]; rfl, by rw [e]; rfl, by rw [e]; rfl, fun c => by rw [e]; rfl⟩

/-- C1 counterexample: the state reached from the initial state by the event
    batch [note-on 69, note-off 69, note-on 60] holds note 60 while the
    release countdown armed by the note-off is still 64 on channel 0, so a
    held note and an active countdown are not mutually exclusive (the 0x90
    branch never resets the countdown). -/
theorem claim_C1_counterexample :
    ¬ (∀ s : Zamerzika, Reachable s →
        ((∀ c, 0 < s.xfade_countdown c → s.note = none) ∧
         (s.note.isSome → ∀ c, s.xfade_countdown c = 0))) := by
  intro h
  have hreach : Reachable (processEvents Zamerzika.init
      [VstEvent.midi ⟨144, 69, 64⟩, VstEvent.midi ⟨128, 69, 0⟩, VstEvent.midi ⟨144, 60, 64⟩]) :=
    Relation.ReflTransGen.single (Step.events _ _)
  obtain ⟨-, h2⟩ := h _ hreach
  have hnote : (processEvents Zamerzika.init
      [VstEvent.midi ⟨144, 69, 64⟩, VstEvent.midi ⟨128, 69, 0⟩,
        VstEvent.midi ⟨144, 60, 64⟩]).note = some 60 := rfl
  have hcd : (processEvents Zamerzika.init
      [VstEvent.midi ⟨144, 69, 64⟩, VstEvent.midi ⟨128, 69, 0⟩,
        VstEvent.midi ⟨144, 60, 64⟩]).xfade_countdown 0 = 64 := rfl
  have h3 := h2 (by rw [hnote]; rfl) 0
  omega

/-- C1 (amended): the mutual-exclusivity invariant does hold across all
    states reachable when no note-on is processed while a release countdown
    is active on some channel: in such runs, a positive countdown on any
    channel implies no note is held, and a held note implies every countdown
    is zero.  (In general a note-on during an active release leaves the
    stale countdown in place alongside the new held note; that stale value
    is never consumed while the note is held.) -/
theorem claim_C1_amended (s : Zamerzika) (h : ReachableNP s) :
    (∀ c, 0 < s.xfade_countdown c → s.note = none) ∧
    (s.note.isSome → ∀ c, s.xfade_countdown c = 0) := by
  induction h with
  | refl =>
    constructor
    · intro c hc
      have h0 : Zamerzika.init.xfade_countdown c = 0 := rfl
      omega
    · intro _ c
      rfl
  | tail hab hbc ih =>
    rename_i b s'
    cases hbc with
    | event ev hev =>
      by_cases h128 : ev.data0 = 128
      · rw [processEvent_noteOff _ _ h128]
        rcases hb : b.note with _ | n
        · rw [noteOff_none _ _ hb]
          exact ih
        · by_cases hnp : n = ev.data1
          · rw [noteOff_match _ _ _ hb hnp]
            constructor
            · intro c _
              rfl
            · intro hs
              exact absurd hs (by simp)
          · rw [noteOff_mismatch _ _ _ hb hnp]
            exact ih
      · by_cases h144 : ev.data0 = 144
        · rw [processEvent_noteOn _ _ h144]
          have hcd0 := hev h144
          constructor
          · intro c hc
            have e : (noteOn b ev.data1).xfade_countdown c = b.xfade_countdown c := rfl
            rw [e, hcd0 c] at hc
            omega
          · intro _ c
            have e : (noteOn b ev.data1).xfade_countdown c = b.xfade_countdown c := rfl
            rw [e]
            exact hcd0 c
        · rw [processEvent_other _ _ h128 h144]
          exact ih
    | sample c x =>
      rcases hb : b.note with _ | p
      · by_cases hcd : 0 < b.xfade_countdown c
        · rw [processSample_eq_release b c x hb hcd]
          constructor
          · intro c2 _
            exact hb
          · intro hs
            exact absurd (show b.note.isSome from hs) (by rw [hb]; simp)
        · rw [processSample_eq_live b c x hb (by omega)]
          constructor
          · intro c2 _
            exact hb
          · intro hs
            exact absurd (show b.note.isSome from hs) (by rw [hb]; simp)
      · have hsome : b.note.isSome := by rw [hb]; rfl
        rw [processSample_eq_frozen b c x hsome]
        constructor
        · intro c2 hc2
          have h0 := ih.1 c2 hc2
          rw [hb] at h0
          exact Option.noConfusion h0
        · intro _ c2
          exact ih.2 (by rw [hb]; rfl) c2
    | setRate r =>
      exact ih

/-- C1 amended witness: the invariant holds at the initial state. -/
theorem claim_C1_amended_witness :
    (∀ c, 0 < Zamerzika.init.xfade_countdown c → Zamerzika.init.note = none) ∧
    (Zamerzika.init.note.isSome → ∀ c, Zamerzika.init.xfade_countdown c = 0) :=
  claim_C1_amended Zamerzika.init Relation.ReflTransGen.refl

/-- C3 (confirmed): a note-off for the held pitch clears the note and arms a
    64-sample countdown on every channel; while no note is held, a
    process_sample with countdown r > 0 outputs
    alpha * output_ring.read() + (1 - alpha) * input with alpha = r/64
    computed before the decrement, countdown 0 passes the live input
    through, and in a 65-sample run after the note-off the 1st output is the
    pure looped content (alpha = 1), the 64th uses alpha = 1/64, and the
    65th is the unmodified live input. -/
theorem claim_C3 :
    (∀ (s : Zamerzika) (ev : MidiEvent), ev.data0 = 128 → s.note = some ev.data1 →
      (processEvent s ev).note = none ∧
      ∀ c, (processEvent s ev).xfade_countdown c = XFADE_FRAMES) ∧
    (∀ (s : Zamerzika) (c : Fin CHANNELS) (x : ℚ) (r : ℕ),
      s.note = none → s.xfade_countdown c = r → 0 < r →
      (processSample s c x).1
        = (r : ℚ) / (XFADE_FRAMES : ℚ) * ((s.output c).read).1
          + (1 - (r : ℚ) / (XFADE_FRAMES : ℚ)) * x ∧
      (processSample s c x).2.xfade_countdown c = r - 1) ∧
    (∀ (s : Zamerzika) (c : Fin CHANNELS) (x : ℚ),
      s.note = none → s.xfade_countdown c = 0 → (processSample s c x).1 = x) ∧
    (∀ (s : Zamerzika) (c : Fin CHANNELS) (stream : List ℚ),
      s.note = none → s.xfade_countdown c = XFADE_FRAMES → 65 ≤ stream.length →
      (runChannel s c stream).1.getD 0 0 = (readList (s.output c) 64).1.getD 0 0 ∧
      (runChannel s c stream).1.getD 63 0
        = (1/64 : ℚ) * (readList (s.output c) 64).1.getD 63 0
          + (1 - 1/64 : ℚ) * stream.getD 63 0 ∧
      (runChannel s c stream).1.getD 64 0 = stream.getD 64 0) := by
  refine ⟨?_, ?_, ?_, ?_⟩
  · intro s ev h hn
    rw [processEvent_noteOff s ev h, noteOff_match s ev.data1 ev.data1 hn rfl]
    exact ⟨rfl, fun c => rfl⟩
  · intro s c x r h1 h2 hr
    rw [processSample_eq_release s c x h1 (by omega)]
    constructor
    · rw [h2]
    · show Function.update s.xfade_countdown c (s.xfade_countdown c - 1) c = r - 1
      rw [Function.update_same, h2]
  · intro s c x h1 h2
    rw [processSample_eq_live s c x h1 h2]
  · intro s c stream h1 h2 hlen
    refine ⟨?_, ?_, ?_⟩
    · have h0 := runChannel_release stream s c 64 h1 h2 0 (by omega)
      rw [h0, if_pos (by norm_num)]
      norm_num
    · have h63 := runChannel_release stream s c 64 h1 h2 63 (by omega)
      rw [h63, if_pos (by norm_num)]
      norm_num
    · have h64 := runChannel_release stream s c 64 h1 h2 64 (by omega)
      rw [h64, if_neg (by norm_num)]

/-- C3 witness: the theorem applied at concrete release states. -/
theorem claim_C3_witness :
    ((processEvent { Zamerzika.init with note := some 69 } ⟨128, 69, 0⟩).note = none) ∧
    ((processSample { Zamerzika.init with xfade_countdown := fun _ => 64 } 0 1).2.xfade_countdown 0
      = 63) ∧
    ((runChannel { Zamerzika.init with xfade_countdown := fun _ => 64 } 0
        (List.replicate 65 0)).1.getD 64 0
      = (List.replicate 65 (0:ℚ)).getD 64 0) := by
  refine ⟨(claim_C3.1 _ ⟨128, 69, 0⟩ rfl rfl).1, ?_, ?_⟩
  · exact (claim_C3.2.1 { Zamerzika.init with xfade_countdown := fun _ => 64 } 0 1 64
      rfl rfl (by omega)).2
  · exact (claim_C3.2.2.2 { Zamerzika.init with xfade_countdown := fun _ => 64 } 0
      (List.replicate 65 0) rfl rfl (by simp)).2.2

lemma smooth_untouched_getD {rb : RingBuffer} (d i : ℕ)
    (hrc : rb.read_cursor = 0) (hd : ∀ j, j < min d rb.len → j % rb.len ≠ i) :
    (rb.smooth d).data.getD i 0 = rb.data.getD i 0 := by
  show (smoothLoop rb.len rb.data (rb.read_cursor + rb.len) (min d rb.len)).getD i 0 = _
  apply smoothLoop_untouched
  intro j hj
  rw [hrc, Nat.zero_add, show rb.len + j = j + rb.len by omega, Nat.add_mod_right]
  exact hd j hj

/-- C2 (confirmed): after a note-on event for any pitch p is processed, for
    the channel in question the copy loop fills the resized output ring with
    exactly the most recent window_size samples written to that channel's
    input ring, in write order (this is the ring content before the
    smoothing pass over the first XFADE_FRAMES positions), with the output
    write cursor wrapped back to 0 aligned with its read cursor; the frozen
    output then replays the (smoothed) captured ring with period
    window_size, and at the positions the smoothing pass does not touch each
    output sample equals the input sample recorded window_size samples
    earlier; at sample rate 48000 with pitch 69 the window size is
    round(48000/440) = 109, so the playback period is 109. -/
theorem claim_C2 (s : Zamerzika) (c : Fin CHANNELS) (xs : List ℚ) (p v : ℕ)
    (hin : s.input c = writeList (RingBuffer.empty.resize MAX_WINDOW_SIZE 0) xs)
    (hw0 : 0 < windowSizeOf s.sample_rate p)
    (hwmax : windowSizeOf s.sample_rate p ≤ MAX_WINDOW_SIZE)
    (hwxs : windowSizeOf s.sample_rate p ≤ xs.length) :
    ((copyLoop ((s.input c).open_window (windowSizeOf s.sample_rate p))
        ((s.output c).resize (windowSizeOf s.sample_rate p) 0)
        (windowSizeOf s.sample_rate p)).2.data
      = xs.drop (xs.length - windowSizeOf s.sample_rate p)) ∧
    ((copyLoop ((s.input c).open_window (windowSizeOf s.sample_rate p))
        ((s.output c).resize (windowSizeOf s.sample_rate p) 0)
        (windowSizeOf s.sample_rate p)).2.write_cursor = 0) ∧
    ((copyLoop ((s.input c).open_window (windowSizeOf s.sample_rate p))
        ((s.output c).resize (windowSizeOf s.sample_rate p) 0)
        (windowSizeOf s.sample_rate p)).2.read_cursor = 0) ∧
    (processEvent s ⟨144, p, v⟩).window_size = windowSizeOf s.sample_rate p ∧
    (processEvent s ⟨144, p, v⟩).output c
      = (copyLoop ((s.input c).open_window (windowSizeOf s.sample_rate p))
          ((s.output c).resize (windowSizeOf s.sample_rate p) 0)
          (windowSizeOf s.sample_rate p)).2.smooth XFADE_FRAMES ∧
    (∀ stream : List ℚ,
      (runChannel (processEvent s ⟨144, p, v⟩) c stream).1
        = List.ofFn (fun i : Fin stream.length =>
            ((processEvent s ⟨144, p, v⟩).output c).data.getD
              ((i : ℕ) % windowSizeOf s.sample_rate p) 0)) ∧
    (∀ i, XFADE_FRAMES ≤ i → i < windowSizeOf s.sample_rate p →
      ((processEvent s ⟨144, p, v⟩).output c).data.getD i 0
        = xs.getD (xs.length - windowSizeOf s.sample_rate p + i) 0) ∧
    (s.sample_rate = 48000 → p = 69 → windowSizeOf s.sample_rate p = 109) := by
  set w := windowSizeOf s.sample_rate p with hwdef
  have hpe : processEvent s ⟨144, p, v⟩ = noteOn s p := processEvent_noteOn _ _ rfl
  obtain ⟨-, -, hys0⟩ := reads_after_open_window RingBuffer.empty MAX_WINDOW_SIZE w 0 xs
    (by norm_num) hwmax hwxs
  have hys : (readList ((s.input c).open_window w) w).1 = xs.drop (xs.length - w) := by
    rw [hin]
    exact hys0
  have hcap : (copyLoop ((s.input c).open_window w) ((s.output c).resize w 0) w).2
      = writeList ((s.output c).resize w 0) (xs.drop (xs.length - w)) := by
    have h := copyLoop_spec w ((s.input c).open_window w) ((s.output c).resize w 0)
    have h2 : (copyLoop ((s.input c).open_window w) ((s.output c).resize w 0) w).2
        = writeList ((s.output c).resize w 0)
            (readList ((s.input c).open_window w) w).1 := by rw [h]
    rw [h2, hys]
  have hdroplen : (xs.drop (xs.length - w)).length = w := by
    rw [List.length_drop]
    omega
  have hfull := writeList_full_data (s.output c) w 0 (xs.drop (xs.length - w)) hw0 hdroplen
  obtain ⟨-, -, hl2, hdl2, -⟩ :=
    writeList_resize (s.output c) w 0 (xs.drop (xs.length - w)) hw0
  have hc4 : (processEvent s ⟨144, p, v⟩).output c
      = (copyLoop ((s.input c).open_window w) ((s.output c).resize w 0) w).2.smooth
          XFADE_FRAMES := by
    rw [hpe]
    rfl
  have hnote1 : (processEvent s ⟨144, p, v⟩).note = some p := by
    rw [hpe]
    rfl
  have hrc1 : ((processEvent s ⟨144, p, v⟩).output c).read_cursor = 0 := by
    rw [hc4, smooth_read_cursor, hcap]
    exact hfull.2.2
  have hlen1 : ((processEvent s ⟨144, p, v⟩).output c).len = w := by
    rw [hc4, smooth_len, hcap]
    exact hl2
  refine ⟨?_, ?_, ?_, ?_, hc4, ?_, ?_, ?_⟩
  · rw [hcap]
    exact hfull.1
  · rw [hcap]
    exact hfull.2.1
  · rw [hcap]
    exact hfull.2.2
  · rw [hpe]
    rfl
  · intro stream
    rw [runChannel_frozen stream _ c p hnote1]
    obtain ⟨hreads1, -, -, -, -⟩ := readList_spec stream.length
      ((processEvent s ⟨144, p, v⟩).output c)
      (by rw [hlen1]; exact hw0) (by rw [hrc1, hlen1]; exact hw0)
    rw [hreads1]
    apply congrArg
    funext i
    rw [hrc1, hlen1, Nat.zero_add]
  · intro i h64 h109
    rw [hc4, hcap]
    have hunt := @smooth_untouched_getD
        (writeList ((s.output c).resize w 0) (xs.drop (xs.length - w)))
        XFADE_FRAMES i hfull.2.2 (by
      intro j hj
      rw [hl2] at hj
      have hj64 : j < 64 := lt_of_lt_of_le hj (min_le_left _ _)
      have hjw : j < w := lt_of_lt_of_le hj (min_le_right _ _)
      have h64i : 64 ≤ i := h64
      rw [hl2, Nat.mod_eq_of_lt hjw]
      omega)
    rw [hunt, hfull.1, getD_drop]
  · intro hs hp69
    subst hp69
    rw [hwdef, hs]
    exact windowSizeOf_48000_69

/-- C2 witness: the theorem applied to a concrete 109-sample history at
    sample rate 48000 and pitch 69. -/
theorem claim_C2_witness :
    windowSizeOf 48000 69 = 109 ∧
    (processEvent
        { Zamerzika.init with
          input := fun _ =>
            writeList (RingBuffer.empty.resize MAX_WINDOW_SIZE 0) (List.replicate 109 0) }
        ⟨144, 69, 0⟩).window_size = windowSizeOf 48000 69 := by
  have h := claim_C2
      { Zamerzika.init with
        input := fun _ =>
          writeList (RingBuffer.empty.resize MAX_WINDOW_SIZE 0) (List.replicate 109 0) }
      0 (List.replicate 109 0) 69 0 rfl
      (by show 0 < windowSizeOf 48000 69; rw [windowSizeOf_48000_69]; norm_num)
      (by show windowSizeOf 48000 69 ≤ MAX_WINDOW_SIZE; rw [windowSizeOf_48000_69]; norm_num)
      (by show windowSizeOf 48000 69 ≤ (List.replicate 109 (0:ℚ)).length
          rw [windowSizeOf_48000_69]
          simp)
  exact ⟨h.2.2.2.2.2.2.2 rfl rfl, h.2.2.2.1⟩
